import Mathlib

/-!
Verification of the TTRPG-Generators table-substitution engine.

The development shallowly embeds the Python sources of the repository:
`Creation` / `Name` membership and equality, the generation loop of
`Generator.generate`, the table parser `_text_file_to_dict`, the
canonicalization pass `_update`, the table loader `_get_tables`, the
recursive header resolver `LinkedGenerator._substitute_headers`, and the
cross-generator dispatch `_get_other_generator_output`.

Python strings are embedded as `List Char`.  Randomness is embedded as an
explicit oracle: a list of natural numbers consumed one draw at a time, or
an indexed production function for the generation loop.  Wall-clock time is
an explicit function from attempt index to a clock reading.  Fallible
operations (missing table keys, empty tables, exhausted oracle or fuel)
return `Option` / `Except`.
-/

/-! ## Text utilities (Python `str` operations on `List Char`) -/

/-- Embedding of Python strings. -/
abbrev Txt : Type := List Char

/-- ASCII lowercasing of one character, embedding what Python `str.lower`
does on the ASCII range used by the tables. -/
def lowChar (c : Char) : Char :=
  if 65 ≤ c.toNat ∧ c.toNat ≤ 90 then Char.ofNat (c.toNat + 32) else c

/-- Python `str.lower` on the embedded text. -/
def lowTxt (s : Txt) : Txt := s.map lowChar

/-- Does `pat` occur at the very start of `s`?  (Helper for substring
search, Python `in`.) -/
def matchesAt : Txt → Txt → Bool
  | [], _ => true
  | _ :: _, [] => false
  | p :: ps, c :: cs => p == c && matchesAt ps cs

/-- Python `pat in s`: does `pat` occur anywhere in `s`? -/
def hasSub (s pat : Txt) : Bool :=
  match s with
  | [] => pat.isEmpty
  | _ :: tail => matchesAt pat s || hasSub tail pat

/-- Python whitespace test for `str.strip` (ASCII whitespace). -/
def isWs (c : Char) : Bool := c == ' ' || c == '\t' || c == '\n' || c == '\r'

/-- Python `str.strip`. -/
def strip (s : Txt) : Txt :=
  ((s.dropWhile isWs).reverse.dropWhile isWs).reverse

/-- Python `s.split(" | ")` for the fixed demarcation separator of the
sources (`self._demarcation_char = " | "`), accumulating the current piece
in reverse. -/
def splitDemarAux : Txt → Txt → List Txt
  | acc, ' ' :: '|' :: ' ' :: rest => acc.reverse :: splitDemarAux [] rest
  | acc, c :: rest => splitDemarAux (c :: acc) rest
  | acc, [] => [acc.reverse]

/-- Python `s.split(" | ")`. -/
def splitDemar (s : Txt) : List Txt := splitDemarAux [] s

/-- Python `s.replace(old, new, 1)`: replace the first occurrence of
`old` in `s` by `new`; leave `s` unchanged when `old` does not occur. -/
def replaceFirst (old new : Txt) : Txt → Txt
  | [] => if old.isEmpty then new else []
  | c :: rest =>
    if matchesAt old (c :: rest) then new ++ (c :: rest).drop old.length
    else c :: replaceFirst old new rest

/-- Number of delimiter characters in a text. -/
def countStar (s : Txt) : Nat := s.count '*'


/-! ## Generator output classes: `Creation` and `Name` membership/equality

`Creation.__contains__` tests `item in str(self)`: a case-sensitive
substring test on the rendered text.  `Creation.__eq__` compares the name
and the labelled attributes.  `Name.__contains__` lowercases both sides
and additionally rejects the case where the keyword equals the whole name;
`Name.__eq__` compares names case-insensitively.  The generation loop is
embedded generically over the containment and equality tests, with the
produced item abstracted by a type `α` and its rendered text by a
`render : α → Txt` function where needed. -/

/-- `Creation.__contains__`: `item in str(self)`, case-sensitive substring
of the rendered text. -/
def creationContains (render : α → Txt) (c : α) (kw : Txt) : Bool :=
  hasSub (render c) kw

/-- `Name.__contains__`: lowercase both sides, require a substring match
and that the keyword differ from the whole name. -/
def nameContains (c kw : Txt) : Bool :=
  hasSub (lowTxt c) (lowTxt kw) && !(lowTxt kw == lowTxt c)

/-- `Name.__eq__`: case-insensitive name comparison. -/
def nameEq (a b : Txt) : Bool := lowTxt a == lowTxt b

/-! ## The generation loop (`Generator.generate`)

The keyword filter of `Generator.generate` is the `for`/`else` block

  for keyword in keywords:
      if keyword not in creation: break
      elif creation in self.items: break
  else:
      self.items.append(creation)

`creation in self.items` is Python list membership, which compares each
stored element to the candidate with the class's `__eq__`. -/

/-- One filtering decision of the keyword path of `Generator.generate`. -/
def keepDecision (contains : α → Txt → Bool) (eqI : α → α → Bool) :
    List Txt → α → List α → Bool
  | [], _, _ => true
  | kw :: rest, c, items =>
    if !(contains c kw) then false
    else if items.any (fun p => eqI p c) then false
    else keepDecision contains eqI rest c items

/-- The `keywords is None` path of `Generator.generate`: append exactly
`count` productions to the pre-existing `self.items`. -/
def generateNone (produce : Nat → α) (count : Nat) (items : List α) : List α :=
  items ++ (List.range count).map produce

/-- The keyword path of `Generator.generate`.  `produce n` is the result
of the `n`-th call to `self._generator()`, `clock n` the reading
`time.time()` takes after that attempt, and `start + maxTime < clock n`
embeds the deadline test `time.time() - start > max_time`.  The loop runs
while fewer than `count` items are kept; each attempt increments the
attempt counter, produces one item, keeps it when `keepDecision` accepts
it, and then polls the deadline once.  `fuel` is a modelling bound on the
number of attempts; the termination theorem shows the result is
independent of any sufficiently large `fuel`.  Returns the kept items and
the number of attempts made. -/
def generateKw (contains : α → Txt → Bool) (eqI : α → α → Bool)
    (produce : Nat → α) (clock : Nat → Nat) (start maxTime : Nat)
    (keywords : List Txt) (count : Nat) :
    Nat → Nat → List α → List α × Nat
  | 0, n, items => (items, n)
  | fuel + 1, n, items =>
    if items.length < count then
      let creation := produce n
      let items2 :=
        if keepDecision contains eqI keywords creation items then
          items ++ [creation]
        else items
      if start + maxTime < clock n then (items2, n + 1)
      else
        generateKw contains eqI produce clock start maxTime keywords count
          fuel (n + 1) items2
    else (items, n)

/-- `Generator.generate`: dispatch on whether `keywords` is `None`. -/
def generate (contains : α → Txt → Bool) (eqI : α → α → Bool)
    (produce : Nat → α) (clock : Nat → Nat) (start maxTime : Nat)
    (keywords : Option (List Txt)) (count : Nat) (fuel : Nat)
    (items : List α) : List α :=
  match keywords with
  | none => generateNone produce count items
  | some kws =>
    (generateKw contains eqI produce clock start maxTime kws count
      fuel 0 items).1

/-- The keyword predicate exactly as the spec sentence of C1 words it:
every keyword is a case-insensitive substring of the rendered text, the
item is no exact duplicate by rendered identity of a kept item, and the
rendered text does not equal a keyword. -/
def specKeepsItem (render : α → Txt) (keywords : List Txt) (c : α)
    (items : List α) : Bool :=
  keywords.all (fun kw => hasSub (lowTxt (render c)) (lowTxt kw))
    && items.all (fun p => !(render p == render c))
    && keywords.all (fun kw => !(render c == kw))

/-! ## Table source parsing (`Generator._text_file_to_dict`)

A file is embedded as its list of lines.  A stripped line starting with
`#` introduces a category key (the rest of the line, stripped); any other
non-empty line becomes the contents of the current key, split on the
`" | "` separator with each piece stripped; blank lines are skipped.  The
current key starts as Python `None`, so keys are embedded as
`Option Txt`.  Python dict assignment keeps the original position of an
overwritten key. -/

/-- Python `contents[k] = v` on an insertion-ordered dict embedded as an
association list. -/
def setEntry (acc : List (Option Txt × List Txt)) (k : Option Txt)
    (v : List Txt) : List (Option Txt × List Txt) :=
  if acc.any (fun p => p.1 == k) then
    acc.map (fun p => if p.1 == k then (k, v) else p)
  else acc ++ [(k, v)]

/-- `Generator._text_file_to_dict`, folding over the lines of the file. -/
def textFileToDict : List Txt → Option Txt → List (Option Txt × List Txt) →
    List (Option Txt × List Txt)
  | [], _, acc => acc
  | line :: rest, current, acc =>
    match strip line with
    | [] => textFileToDict rest current acc
    | c :: cs =>
      if c == '#' then textFileToDict rest (some (strip cs)) acc
      else
        textFileToDict rest current
          (setEntry acc current ((splitDemar (c :: cs)).map strip))

/-! ## Canonicalization (`Generator._update`)

For every category: lowercase every entry, remove exact duplicates and
sort (Python `sorted(list(set(...)))`), then rewrite the file as
`# key` / `" | ".join(entries)` / blank line for each category in dict
order.  The sort is embedded by insertion into a strictly sorted list,
which computes the same sorted duplicate-free sequence irrespective of
Python's set iteration order. -/

/-- Python string comparison: lexicographic on code points. -/
def lexLt : Txt → Txt → Bool
  | [], [] => false
  | [], _ :: _ => true
  | _ :: _, [] => false
  | a :: as, b :: bs =>
    if a.toNat < b.toNat then true
    else if b.toNat < a.toNat then false
    else lexLt as bs

/-- Insert into a strictly sorted list, dropping duplicates. -/
def sortedInsert (x : Txt) : List Txt → List Txt
  | [] => [x]
  | y :: ys =>
    if lexLt x y then x :: y :: ys
    else if x == y then y :: ys
    else y :: sortedInsert x ys

/-- Python `sorted(list(set(l)))`: the sorted duplicate-free sequence of
the elements of `l`. -/
def sortDedup (l : List Txt) : List Txt := l.foldr sortedInsert []

/-- The per-category normalization of `Generator._update`. -/
def canonEntries (l : List Txt) : List Txt := sortDedup (l.map lowTxt)

/-- The `" | ".join` of `Generator._update`. -/
def joinDemar (vs : List Txt) : Txt := List.intercalate " | ".data vs

/-- The file text written by `Generator._update`, as its list of lines:
`"# " + key`, the joined entries, and the blank line from the trailing
`"\n\n"`.  A Python `None` key makes `"# " + key` raise `TypeError`,
embedded as `none`. -/
def renderDict : List (Option Txt × List Txt) → Option (List Txt)
  | [] => some []
  | (none, _) :: _ => none
  | (some k, vs) :: rest =>
    (renderDict rest).map
      (fun ls => ('#' :: ' ' :: k) :: joinDemar vs :: [] :: ls)

/-- One pass of `Generator._update` over one table file: parse, normalize
every category, rewrite. -/
def updateFile (lines : List Txt) : Option (List Txt) :=
  renderDict
    ((textFileToDict lines none []).map (fun p => (p.1, canonEntries p.2)))

/-! ## Table loading (`Generator._get_tables`) -/

/-- The error raised by `Generator._get_tables` on a category collision:
its message names the offending header, the source file, and the existing
table contents. -/
structure DuplicateCategory where
  category : Option Txt
  source : Txt
  existing : List Txt
deriving DecidableEq

/-- Association-list lookup (Python dict read access). -/
def lookupA [BEq κ] (l : List (κ × β)) (k : κ) : Option β :=
  (l.find? (fun p => p.1 == k)).map Prod.snd

/-- Merge one parsed file into the accumulated tables, failing on the
first header that is already present. -/
def addFileTables (source : Txt) :
    List (Option Txt × List Txt) → List (Option Txt × List Txt) →
    Except DuplicateCategory (List (Option Txt × List Txt))
  | tables, [] => Except.ok tables
  | tables, (h, content) :: rest =>
    match lookupA tables h with
    | some existing => Except.error ⟨h, source, existing⟩
    | none => addFileTables source (tables ++ [(h, content)]) rest

/-- `Generator._get_tables` over a list of (filename, file lines). -/
def getTablesAux : List (Option Txt × List Txt) → List (Txt × List Txt) →
    Except DuplicateCategory (List (Option Txt × List Txt))
  | tables, [] => Except.ok tables
  | tables, (filename, lines) :: restFiles =>
    match addFileTables filename tables (textFileToDict lines none []) with
    | Except.error e => Except.error e
    | Except.ok tables2 => getTablesAux tables2 restFiles

/-- `Generator._get_tables`. -/
def getTables (files : List (Txt × List Txt)) :
    Except DuplicateCategory (List (Option Txt × List Txt)) :=
  getTablesAux [] files

/-! ## Cross-generator invocation (`Generator._get_other_generator_output`) -/

/-- The error of cross-generator invocation on an unregistered pair
(Python `KeyError` on the registry dict, named `UnknownGenerator` by the
spec). -/
structure UnknownGenerator where
  genType : Txt
  genName : Txt
deriving DecidableEq

/-- Modelled from the spec: the `GeneratorLibrary` registry (its class is
referenced but not among the sources).  Per the spec it maps generator
family → generator name → a constructible generator; a registered entry is
embedded as its constructor already applied to its static init arguments,
taking the `force_table_update` flag and yielding the fresh instance's
production function. -/
abbrev GenLibrary (α : Type) : Type := List (Txt × List (Txt × (Bool → Nat → α)))

/-- `Generator._get_other_generator_output`: look up the registry, build a
fresh instance with `force_table_update = False` (so an empty `items`
list), run `generate(1, None, 0.1, suppress_print=True)` and return the
first item.  The registry is returned alongside the result to record that
it is left untouched. -/
def getOtherGeneratorOutput (library : GenLibrary α) (genType genName : Txt) :
    Except UnknownGenerator α × GenLibrary α :=
  match lookupA library genType with
  | none => (Except.error ⟨genType, genName⟩, library)
  | some byName =>
    match lookupA byName genName with
    | none => (Except.error ⟨genType, genName⟩, library)
    | some construct =>
      match (generate (fun _ _ => true) (fun _ _ => true) (construct false)
          (fun _ => 1) 0 0 none 1 1 []).head? with
      | none => (Except.error ⟨genType, genName⟩, library)
      | some x => (Except.ok x, library)

/-! ## The header resolver (`LinkedGenerator._substitute_headers`)

`re.compile(r"\*[^*]*\*").findall(entry)` scans the text left to right,
pairing each delimiter with the next one; the scan is embedded as a
two-state automaton (outside / inside a candidate reference).  The
resolver then walks the found headers: a header bound in the special-case
map invokes its function (which may consume random draws and may yield a
structured `Creation`); otherwise one entry is drawn at random from the
table named inside the delimiters and recursively resolved.  A `Creation`
replacement is returned immediately; a string replacement is substituted
for the first remaining occurrence of the header's literal text.  `fuel`
bounds the recursion depth (the Python original can recurse without bound
on cyclic data); random draws come from an explicit oracle list. -/

/-- The regex `\*[^*]*\*` findall scan: `inside = none` outside a
candidate match, `inside = some acc` after an unmatched opening delimiter
with the reversed interior read so far. -/
def findHeadersAux : Option Txt → Txt → List Txt
  | _, [] => []
  | none, c :: rest =>
    if c == '*' then findHeadersAux (some []) rest
    else findHeadersAux none rest
  | some acc, c :: rest =>
    if c == '*' then ('*' :: acc.reverse ++ ['*']) :: findHeadersAux none rest
    else findHeadersAux (some (c :: acc)) rest

/-- All headers of a text, in scan order. -/
def findHeaders (s : Txt) : List Txt := findHeadersAux none s

/-- `hdr[1:-1]`: strip the delimiters off a header. -/
def trimStars (h : Txt) : Txt := (h.drop 1).dropLast

/-- Output alternative of the resolver: plain text or a structured
`Creation` (of an abstract entity type `ε`). -/
inductive RVal (ε : Type) where
  | s : Txt → RVal ε
  | en : ε → RVal ε
deriving DecidableEq

/-- The data a `LinkedGenerator` resolves against: the loaded tables and
the special-case map.  A special-case function consumes the random oracle
and yields a replacement. -/
structure ResolverEnv (ε : Type) where
  tables : Txt → Option (List Txt)
  special : Txt → Option (List Nat → RVal ε × List Nat)

/-- The `for hdr in headers` loop of `_substitute_headers` over the
remaining headers of the original scan.  `none` models a raised exception
(missing table, empty table, exhausted oracle) or exhausted fuel; `fuel`
decreases on every step so the embedding is structurally recursive, and
any sufficiently large fuel gives the Python behaviour. -/
def substituteHeadersLoop (env : ResolverEnv ε) :
    Nat → Txt → List Txt → List Nat → Option (RVal ε × List Nat)
  | 0, _, _, _ => none
  | _ + 1, entry, [], rand => some (RVal.s entry, rand)
  | fuel + 1, entry, hdr :: rest, rand =>
    let step :=
      match env.special hdr with
      | some f => some (f rand)
      | none =>
        match rand with
        | [] => none
        | i :: rand2 =>
          match env.tables (trimStars hdr) with
          | none => none
          | some entries =>
            match entries[i % entries.length]? with
            | none => none
            | some drawn =>
              substituteHeadersLoop env fuel drawn (findHeaders drawn) rand2
    match step with
    | none => none
    | some (RVal.en e, rand2) => some (RVal.en e, rand2)
    | some (RVal.s s2, rand2) =>
      substituteHeadersLoop env fuel (replaceFirst hdr s2 entry) rest rand2

/-- `LinkedGenerator._substitute_headers`: scan for headers, then walk
them. -/
def substituteHeaders (env : ResolverEnv ε) (fuel : Nat) (entry : Txt)
    (rand : List Nat) : Option (RVal ε × List Nat) :=
  substituteHeadersLoop env fuel entry (findHeaders entry) rand

/-- The resolution of one header of the scan: special case first, else a
random table draw resolved recursively. -/
def resolveHeader (env : ResolverEnv ε) (fuel : Nat) (hdr : Txt)
    (rand : List Nat) : Option (RVal ε × List Nat) :=
  match env.special hdr with
  | some f => some (f rand)
  | none =>
    match rand with
    | [] => none
    | i :: rand2 =>
      match env.tables (trimStars hdr) with
      | none => none
      | some entries =>
        match entries[i % entries.length]? with
        | none => none
        | some drawn => substituteHeaders env fuel drawn rand2

/-- A resolver environment over one table `x → [a, b]`, no specials. -/
def envXab : ResolverEnv Unit where
  tables := fun n => if n == "x".data then some ["a".data, "b".data] else none
  special := fun _ => none


/-- A resolver environment with one special case `*e*` yielding a
structured `Creation` without consuming the oracle. -/
def envEnt : ResolverEnv Unit where
  tables := fun _ => none
  special := fun h =>
    if h == "*e*".data then some (fun r => (RVal.en (), r)) else none

/-- A resolver environment whose single table entry carries a stray
delimiter character. -/
def envStray : ResolverEnv Unit where
  tables := fun n => if n == "x".data then some ["a*b".data] else none
  special := fun _ => none

/-! ## General lemmas about the embedded operations -/

theorem matchesAt_append (x y : Txt) : matchesAt x (x ++ y) = true := by
  induction x with
  | nil => rfl
  | cons p ps ih => simp [matchesAt, ih]

theorem replaceFirst_here (old repl suf : Txt) :
    replaceFirst old repl (old ++ suf) = repl ++ suf := by
  cases old with
  | nil =>
    cases suf with
    | nil => simp [replaceFirst]
    | cons c rest => simp [replaceFirst, matchesAt]
  | cons c cs =>
    show replaceFirst (c :: cs) repl (c :: (cs ++ suf)) = repl ++ suf
    rw [replaceFirst]
    have h := matchesAt_append (c :: cs) suf
    simp only [List.cons_append] at h
    rw [h]
    simp only [if_true]
    have : (c :: (cs ++ suf)).drop (c :: cs).length = suf := by
      exact List.drop_left (c :: cs) suf
    rw [this]

theorem countStar_nil : countStar [] = 0 := rfl

theorem countStar_cons (c : Char) (l : Txt) :
    countStar (c :: l) = (if c = '*' then 1 else 0) + countStar l := by
  by_cases h : c = '*' <;>
    simp [countStar, List.count_cons, h, Nat.add_comm]

theorem countStar_append (a b : Txt) :
    countStar (a ++ b) = countStar a + countStar b := by
  simp [countStar, List.count_append]

theorem replaceFirst_starfree_front (mid repl pre suf : Txt)
    (hpre : countStar pre = 0) :
    replaceFirst ('*' :: mid ++ ['*']) repl (pre ++ ('*' :: mid ++ ['*']) ++ suf)
      = pre ++ repl ++ suf := by
  induction pre with
  | nil =>
    simpa using replaceFirst_here ('*' :: mid ++ ['*']) repl suf
  | cons c pre ih =>
    rw [countStar_cons] at hpre
    have hc : ¬ (c = '*') := by
      intro h
      simp [h] at hpre
    have hpre0 : countStar pre = 0 := by
      simp [hc] at hpre
      exact hpre
    show replaceFirst ('*' :: mid ++ ['*']) repl
        (c :: (pre ++ ('*' :: mid ++ ['*']) ++ suf)) = c :: (pre ++ repl ++ suf)
    rw [replaceFirst]
    have hm : matchesAt ('*' :: mid ++ ['*'])
        (c :: (pre ++ ('*' :: mid ++ ['*']) ++ suf)) = false := by
      simp [matchesAt]
      intro h
      exact absurd h.symm hc
    rw [hm]
    simp only [Bool.false_eq_true, if_false]
    rw [ih hpre0]

theorem findHeadersAux_some_nil (l : Txt) :
    ∀ acc, findHeadersAux (some acc) l = [] → countStar l = 0 := by
  induction l with
  | nil => intro acc _; rfl
  | cons c rest ih =>
    intro acc h
    by_cases hc : c == '*'
    · simp [findHeadersAux, hc] at h
    · simp only [findHeadersAux, hc, Bool.false_eq_true, if_false] at h
      have hc' : ¬ (c = '*') := by simpa using hc
      rw [countStar_cons]
      simp [hc', ih (c :: acc) h]

theorem findHeaders_nil_le_one (l : Txt) :
    findHeaders l = [] → countStar l ≤ 1 := by
  induction l with
  | nil => intro _; simp [countStar_nil]
  | cons c rest ih =>
    intro h
    by_cases hc : c == '*'
    · simp only [findHeaders, findHeadersAux, hc, if_true] at h
      have := findHeadersAux_some_nil rest [] h
      have hc' : c = '*' := by simpa using hc
      rw [countStar_cons]
      simp [hc', this]
    · simp only [findHeaders, findHeadersAux, hc, Bool.false_eq_true, if_false] at h
      have hc' : ¬ (c = '*') := by simpa using hc
      rw [countStar_cons]
      simp [hc']
      exact ih h

theorem findHeadersAux_some_decomp (l : Txt) :
    ∀ acc hdr hs, findHeadersAux (some acc) l = hdr :: hs →
      ∃ mid suf, countStar mid = 0 ∧
        hdr = '*' :: (acc.reverse ++ mid) ++ ['*'] ∧
        l = mid ++ '*' :: suf ∧ findHeadersAux none suf = hs := by
  induction l with
  | nil => intro acc hdr hs h; simp [findHeadersAux] at h
  | cons c rest ih =>
    intro acc hdr hs h
    by_cases hc : c == '*'
    · have hc' : c = '*' := by simpa using hc
      simp only [findHeadersAux, hc, if_true, List.cons.injEq] at h
      refine ⟨[], rest, rfl, ?_, ?_, h.2⟩
      · simp [h.1.symm]
      · simp [hc']
    · have hc' : ¬ (c = '*') := by simpa using hc
      simp only [findHeadersAux, hc, Bool.false_eq_true, if_false] at h
      obtain ⟨mid, suf, hm, hh, hl, hrest⟩ := ih (c :: acc) hdr hs h
      refine ⟨c :: mid, suf, ?_, ?_, ?_, hrest⟩
      · rw [countStar_cons]; simp [hc', hm]
      · rw [hh]; simp
      · rw [hl]; simp

theorem findHeaders_decomp (l : Txt) :
    ∀ hdr hs, findHeaders l = hdr :: hs →
      ∃ pre mid suf, countStar pre = 0 ∧ countStar mid = 0 ∧
        hdr = '*' :: mid ++ ['*'] ∧
        l = pre ++ '*' :: mid ++ '*' :: suf ∧ findHeaders suf = hs := by
  induction l with
  | nil => intro hdr hs h; simp [findHeaders, findHeadersAux] at h
  | cons c rest ih =>
    intro hdr hs h
    by_cases hc : c == '*'
    · have hc' : c = '*' := by simpa using hc
      simp only [findHeaders, findHeadersAux, hc, if_true] at h
      obtain ⟨mid, suf, hm, hh, hl, hrest⟩ :=
        findHeadersAux_some_decomp rest [] hdr hs h
      refine ⟨[], mid, suf, rfl, hm, ?_, ?_, hrest⟩
      · simpa using hh
      · simp [hc', hl]
    · have hc' : ¬ (c = '*') := by simpa using hc
      simp only [findHeaders, findHeadersAux, hc, Bool.false_eq_true, if_false] at h
      obtain ⟨pre, mid, suf, hp, hm, hh, hl, hrest⟩ := ih hdr hs h
      refine ⟨c :: pre, mid, suf, ?_, hm, hh, ?_, hrest⟩
      · rw [countStar_cons]; simp [hc', hp]
      · rw [hl]; simp

theorem findHeaders_of_le_one (l : Txt) (h : countStar l ≤ 1) :
    findHeaders l = [] := by
  cases hf : findHeaders l with
  | nil => rfl
  | cons hdr hs =>
    exfalso
    obtain ⟨pre, mid, suf, _, _, _, hl, _⟩ := findHeaders_decomp l hdr hs hf
    rw [hl] at h
    rw [countStar_append] at h
    rw [countStar_cons] at h
    rw [countStar_append] at h
    rw [countStar_cons] at h
    simp at h
    omega

/-! ## Resolver lemmas (claims about `_substitute_headers`) -/


theorem substituteHeadersLoop_cons (env : ResolverEnv ε) (fuel : Nat)
    (entry hdr : Txt) (rest : List Txt) (rand : List Nat) :
    substituteHeadersLoop env (fuel + 1) entry (hdr :: rest) rand =
      match resolveHeader env fuel hdr rand with
      | none => none
      | some (RVal.en e, r2) => some (RVal.en e, r2)
      | some (RVal.s s2, r2) =>
        substituteHeadersLoop env fuel (replaceFirst hdr s2 entry) rest r2 := by
  rfl

theorem resolveHeader_starfree (env : ResolverEnv ε)
    (hT : ∀ name entries, env.tables name = some entries →
      ∀ e ∈ entries, countStar e = 0)
    (hS : ∀ hd f, env.special hd = some f →
      ∀ r s r2, f r = (RVal.s s, r2) → countStar s = 0)
    (fuel : Nat) (hdr : Txt) (rand : List Nat) (s2 : Txt) (r3 : List Nat)
    (h : resolveHeader env fuel hdr rand = some (RVal.s s2, r3)) :
    countStar s2 = 0 := by
  rcases hsp : env.special hdr with _ | f
  · rcases hr : rand with _ | ⟨i, rand2⟩
    · subst hr; simp [resolveHeader, hsp] at h
    · subst hr
      rcases ht : env.tables (trimStars hdr) with _ | entries
      · simp [resolveHeader, hsp, ht] at h
      · rcases hg : entries[i % entries.length]? with _ | drawn
        · simp [resolveHeader, hsp, ht, hg] at h
        · simp only [resolveHeader, hsp, ht, hg] at h
          have hdrawn : countStar drawn = 0 :=
            hT (trimStars hdr) entries ht drawn
              (List.get?_mem (by rw [List.get?_eq_getElem?]; exact hg))
          have hfd : findHeaders drawn = [] :=
            findHeaders_of_le_one drawn (by omega)
          simp only [substituteHeaders] at h
          rw [hfd] at h
          cases fuel with
          | zero => simp [substituteHeadersLoop] at h
          | succ fuel2 =>
            simp only [substituteHeadersLoop, Option.some.injEq,
              Prod.mk.injEq, RVal.s.injEq] at h
            rw [← h.1]
            exact hdrawn
  · simp only [resolveHeader, hsp, Option.some.injEq] at h
    exact hS hdr f hsp rand s2 r3 h

theorem substituteHeadersLoop_starfree (env : ResolverEnv ε)
    (hT : ∀ name entries, env.tables name = some entries →
      ∀ e ∈ entries, countStar e = 0)
    (hS : ∀ hd f, env.special hd = some f →
      ∀ r s r2, f r = (RVal.s s, r2) → countStar s = 0) :
    ∀ (hdrs : List Txt) (fuel : Nat) (pre b : Txt) (rand : List Nat)
      (s : Txt) (r2 : List Nat),
      countStar pre = 0 → findHeaders b = hdrs →
      substituteHeadersLoop env fuel (pre ++ b) hdrs rand
        = some (RVal.s s, r2) →
      countStar s ≤ 1 := by
  intro hdrs
  induction hdrs with
  | nil =>
    intro fuel pre b rand s r2 hpre hb h
    cases fuel with
    | zero => simp [substituteHeadersLoop] at h
    | succ fuel =>
      simp only [substituteHeadersLoop, Option.some.injEq, Prod.mk.injEq,
        RVal.s.injEq] at h
      rw [← h.1, countStar_append, hpre]
      simpa using findHeaders_nil_le_one b hb
  | cons hdr rest ih =>
    intro fuel pre b rand s r2 hpre hb h
    cases fuel with
    | zero => simp [substituteHeadersLoop] at h
    | succ fuel =>
      rw [substituteHeadersLoop_cons] at h
      rcases hres : resolveHeader env fuel hdr rand with _ | ⟨v, r3⟩
      · rw [hres] at h; simp at h
      · cases v with
        | en e => rw [hres] at h; simp at h
        | s s2 =>
          rw [hres] at h
          simp only at h
          have hs2 : countStar s2 = 0 :=
            resolveHeader_starfree env hT hS fuel hdr rand s2 r3 hres
          obtain ⟨p, mid, suf, hp, hmid, hhdr, hbeq, hsuf⟩ :=
            findHeaders_decomp b hdr rest hb
          have hppre : countStar (pre ++ p) = 0 := by
            rw [countStar_append, hpre, hp]
          have hsplit : pre ++ b = (pre ++ p) ++ ('*' :: mid ++ ['*']) ++ suf := by
            rw [hbeq]; simp
          rw [hsplit, hhdr] at h
          rw [replaceFirst_starfree_front mid s2 (pre ++ p) suf hppre] at h
          apply ih fuel (pre ++ p ++ s2) suf r3 s r2
            (by rw [countStar_append, hppre, hs2]) hsuf
          have hassoc : (pre ++ p) ++ s2 ++ suf = (pre ++ p ++ s2) ++ suf := by
            simp
          rw [← hassoc]
          exact h

/-- C2 (counterexample): the claim that a string returned by
`_substitute_headers` contains no delimiter-bounded header references
fails on a table entry carrying a stray delimiter: resolving
`"*x* c*d"` against the table `x → ["a*b"]` returns the string
`"a*b c*d"`, in which the scan finds the reference `"*b c*"`. -/
theorem c2_counterexample_stray_delimiter :
    substituteHeaders envStray 3 "*x* c*d".data [0]
      = some (RVal.s "a*b c*d".data, []) ∧
    findHeaders "a*b c*d".data ≠ [] :=
  ⟨by decide, by decide⟩

/-- C2 (amended): when no table entry and no special-case string output
contains the delimiter character, every string returned by
`_substitute_headers` contains no delimiter-bounded header references. -/
theorem c2_amended_resolver_headerfree (env : ResolverEnv ε)
    (hT : ∀ name entries, env.tables name = some entries →
      ∀ e ∈ entries, countStar e = 0)
    (hS : ∀ hd f, env.special hd = some f →
      ∀ r s r2, f r = (RVal.s s, r2) → countStar s = 0)
    (fuel : Nat) (entry : Txt) (rand : List Nat) (s : Txt) (r2 : List Nat)
    (h : substituteHeaders env fuel entry rand = some (RVal.s s, r2)) :
    findHeaders s = [] := by
  apply findHeaders_of_le_one
  exact substituteHeadersLoop_starfree env hT hS (findHeaders entry) fuel
    [] entry rand s r2 rfl rfl h

theorem c2_amended_witness : findHeaders "a q".data = [] := by
  have hT : ∀ name entries, envXab.tables name = some entries →
      ∀ e ∈ entries, countStar e = 0 := by
    intro name entries h
    simp only [envXab] at h
    split at h
    · cases h; decide
    · cases h
  have hS : ∀ hd f, envXab.special hd = some f →
      ∀ r s r2, f r = (RVal.s s, r2) → countStar s = 0 := by
    intro hd f h
    simp [envXab] at h
  exact c2_amended_resolver_headerfree envXab hT hS 5 "*x* q".data [0]
    "a q".data [] (by decide)

/-- C3: if the resolution of a header reference (special case or table
draw) yields a structured `Creation`, the resolver returns it at once:
the result does not depend on the partially substituted text `entry` nor
on the remaining references `rest`, which are discarded. -/
theorem c3_entity_short_circuits (env : ResolverEnv ε) (fuel : Nat)
    (hdr : Txt) (rand r2 : List Nat) (e : ε) (entry : Txt) (rest : List Txt)
    (h : resolveHeader env fuel hdr rand = some (RVal.en e, r2)) :
    substituteHeadersLoop env (fuel + 1) entry (hdr :: rest) rand
      = some (RVal.en e, r2) := by
  rw [substituteHeadersLoop_cons, h]

theorem c3_witness :
    substituteHeadersLoop envEnt 4 "zz".data ["*e*".data, "*q*".data] [7]
      = some (RVal.en (), [7]) :=
  c3_entity_short_circuits envEnt 3 "*e*".data [7] [7] () "zz".data
    ["*q*".data] (by decide)

/-- C4: a string replacement is substituted for the first remaining
occurrence of the reference's literal text only (occurrences to the right
are untouched), and the two occurrences of a doubled reference get
independent draws: over the table `x → [a, b]` the text `"*x* *x*"`
resolves to `"a b"` under one oracle and to `"b a"` under another, with
the two entries distinct. -/
theorem c4_first_occurrence_substitution :
    (∀ (mid repl pre suf : Txt), countStar pre = 0 →
      replaceFirst ('*' :: mid ++ ['*']) repl
          (pre ++ ('*' :: mid ++ ['*']) ++ suf) = pre ++ repl ++ suf) ∧
    substituteHeaders envXab 5 "*x* *x*".data [0, 1]
      = some (RVal.s "a b".data, []) ∧
    substituteHeaders envXab 5 "*x* *x*".data [1, 0]
      = some (RVal.s "b a".data, []) ∧
    "a".data ≠ "b".data :=
  ⟨fun mid repl pre suf hpre =>
    replaceFirst_starfree_front mid repl pre suf hpre,
   by decide, by decide, by decide⟩

theorem c4_witness :
    replaceFirst ('*' :: "x".data ++ ['*']) "a".data
        ("q ".data ++ ('*' :: "x".data ++ ['*']) ++ " *x*".data)
      = "q ".data ++ "a".data ++ " *x*".data ∧
    substituteHeaders envXab 5 "*x* *x*".data [0, 1]
      = some (RVal.s "a b".data, []) :=
  ⟨c4_first_occurrence_substitution.1 "x".data "a".data "q ".data
    " *x*".data (by decide),
   c4_first_occurrence_substitution.2.1⟩

/-! ## Generation-loop lemmas (claims about `Generator.generate`) -/

/-- C10: when `keywords` is present but empty, the keyword path accepts
every produced item unconditionally: the filtering decision is `true` for
any candidate against any kept list, and the whole loop is independent of
the containment and equality tests (the per-keyword checks, including
duplicate rejection, never run). -/
theorem c10_empty_keywords_accepts_all (contains1 contains2 : α → Txt → Bool)
    (eqI1 eqI2 : α → α → Bool) (produce : Nat → α) (clock : Nat → Nat)
    (start maxTime count fuel n : Nat) (items kept : List α) (c : α) :
    keepDecision contains1 eqI1 [] c kept = true ∧
    generateKw contains1 eqI1 produce clock start maxTime [] count fuel n items
      = generateKw contains2 eqI2 produce clock start maxTime [] count fuel n
          items := by
  refine ⟨rfl, ?_⟩
  induction fuel generalizing n items with
  | zero => rfl
  | succ fuel ih =>
    simp only [generateKw, keepDecision]
    by_cases h : items.length < count
    · simp only [h, if_true]
      by_cases ht : start + maxTime < clock n
      · simp [ht]
      · simp only [ht, if_false]
        exact ih (n + 1) (items ++ [produce n])
    · simp [h]

/-- C6 (counterexample): the returned sequence is not bounded by `count`
on repeated calls: a second `generate(1, None, ...)` on the same instance
returns the accumulated two-element `self.items` list, exceeding
`count = 1`. -/
theorem c6_counterexample_repeated_calls :
    ¬ ((generate (fun (_ : Txt) _ => true) (fun _ _ => true)
        (fun _ => "n".data) (fun _ => 0) 0 0 none 1 1
        (generate (fun _ _ => true) (fun _ _ => true) (fun _ => "n".data)
          (fun _ => 0) 0 0 none 1 1 [])).length ≤ 1) := by
  decide

theorem generateKw_length_le (contains : α → Txt → Bool) (eqI : α → α → Bool)
    (produce : Nat → α) (clock : Nat → Nat) (start maxTime : Nat)
    (keywords : List Txt) (count : Nat) :
    ∀ (fuel n : Nat) (items : List α), items.length ≤ count →
      (generateKw contains eqI produce clock start maxTime keywords count
        fuel n items).1.length ≤ count := by
  intro fuel
  induction fuel with
  | zero => intro n items h; exact h
  | succ fuel ih =>
    intro n items h
    simp only [generateKw]
    by_cases hlt : items.length < count
    · simp only [hlt, if_true]
      by_cases hkeep :
          keepDecision contains eqI keywords (produce n) items = true
      · simp only [hkeep, if_true]
        by_cases ht : start + maxTime < clock n
        · simp only [ht, if_true]
          simpa using hlt
        · simp only [ht, if_false]
          exact ih (n + 1) (items ++ [produce n]) (by simpa using hlt)
      · simp only [Bool.not_eq_true] at hkeep
        simp only [hkeep, Bool.false_eq_true, if_false]
        by_cases ht : start + maxTime < clock n
        · simp only [ht, if_true]; exact h
        · simp only [ht, if_false]; exact ih (n + 1) items h
    · simp only [hlt, if_false]; exact h

/-- C6 (amended): a single `generate` call on a generator whose `items`
list is empty (in particular a fresh instance) returns at most `count`
items, on both the `None` path and the keyword path; on repeated calls the
persistent `self.items` accumulates and the returned list may exceed
`count`. -/
theorem c6_amended_count_bound_fresh (contains : α → Txt → Bool)
    (eqI : α → α → Bool) (produce : Nat → α) (clock : Nat → Nat)
    (start maxTime : Nat) (keywords : Option (List Txt))
    (count fuel : Nat) :
    (generate contains eqI produce clock start maxTime keywords count fuel
      []).length ≤ count := by
  cases keywords with
  | none => simp [generate, generateNone]
  | some kws =>
    exact generateKw_length_le contains eqI produce clock start maxTime kws
      count fuel 0 [] (by simp)

/-- C1 (counterexample): for a generator producing plain `Creation`
items, the loop's keyword test `keyword in creation` is `keyword in
str(self)`, a case-sensitive substring test with no keyword-equality
guard.  With keyword `"abc"` and rendered text `"Abc"` the spec predicate
of the claim accepts the item, but the loop rejects it: one attempt on a
fresh generator with `count = 1` keeps nothing. -/
theorem c1_counterexample_case_sensitive :
    (generateKw (creationContains id) (fun a b => a == b)
        (fun _ => "Abc".data) (fun _ => 0) 0 5 ["abc".data] 1 1 0 []).1
      = [] ∧
    specKeepsItem id ["abc".data] "Abc".data [] = true :=
  ⟨by decide, by decide⟩

theorem keepDecision_iff (contains : α → Txt → Bool) (eqI : α → α → Bool)
    (kws : List Txt) (c : α) (items : List α) :
    keepDecision contains eqI kws c items = true ↔
      ∀ k ∈ kws, contains c k = true ∧ ∀ p ∈ items, eqI p c = false := by
  induction kws with
  | nil => simp [keepDecision]
  | cons kw rest ih =>
    constructor
    · intro h
      simp only [keepDecision] at h
      by_cases hc : contains c kw = true
      · rw [hc] at h
        simp only [Bool.not_true, Bool.false_eq_true, if_false] at h
        by_cases hd : items.any (fun p => eqI p c) = true
        · rw [hd] at h
          simp at h
        · have hd1 : items.any (fun p => eqI p c) = false := by simpa using hd
          rw [hd1] at h
          simp only [Bool.false_eq_true, if_false] at h
          have hrest := ih.mp h
          have hdup : ∀ p ∈ items, eqI p c = false := by
            intro p hp
            have := List.any_eq_false.mp hd1 p hp
            simpa using this
          intro k hk
          rcases List.mem_cons.mp hk with hk1 | hk2
          · rw [hk1]; exact ⟨hc, hdup⟩
          · exact hrest k hk2
      · have hc1 : contains c kw = false := by simpa using hc
        rw [hc1] at h
        simp at h
    · intro h
      simp only [keepDecision]
      have hc := (h kw (List.mem_cons_self kw rest)).1
      have hdup := (h kw (List.mem_cons_self kw rest)).2
      rw [hc]
      simp only [Bool.not_true, Bool.false_eq_true, if_false]
      have hd : items.any (fun p => eqI p c) = false := by
        apply List.any_eq_false.mpr
        intro p hp
        simp [hdup p hp]
      rw [hd]
      simp only [Bool.false_eq_true, if_false]
      exact ih.mpr (fun k hk => h k (List.mem_cons_of_mem kw hk))

theorem nameContains_iff (c kw : Txt) :
    nameContains c kw = true ↔
      (hasSub (lowTxt c) (lowTxt kw) = true ∧ lowTxt kw ≠ lowTxt c) := by
  simp [nameContains]

theorem nameEq_false_iff (a b : Txt) :
    nameEq a b = false ↔ lowTxt a ≠ lowTxt b := by
  simp [nameEq]

/-- C1 (amended): for `Name`-producing generators with a non-empty
keyword list, the loop keeps a candidate name iff every lowercased
keyword is a substring of the lowercased name, no lowercased keyword
equals the whole lowercased name, and the name is not a case-insensitive
duplicate of an already-kept name; for plain-`Creation` generators the
substring test is case-sensitive on the rendered text and the
keyword-equality guard is absent. -/
theorem c1_amended_name_keep_iff (keywords : List Txt) (c : Txt)
    (items : List Txt) (hne : keywords ≠ []) :
    keepDecision nameContains nameEq keywords c items = true ↔
      ((∀ kw ∈ keywords,
          hasSub (lowTxt c) (lowTxt kw) = true ∧ lowTxt kw ≠ lowTxt c) ∧
       ∀ p ∈ items, lowTxt p ≠ lowTxt c) := by
  rw [keepDecision_iff]
  cases keywords with
  | nil => cases hne rfl
  | cons kw rest =>
    constructor
    · intro h
      refine ⟨fun k hk => (nameContains_iff c k).mp (h k hk).1,
        fun p hp => (nameEq_false_iff p c).mp
          ((h kw (List.mem_cons_self kw rest)).2 p hp)⟩
    · rintro ⟨hall, hdup⟩ k hk
      exact ⟨(nameContains_iff c k).mpr (hall k hk),
        fun p hp => (nameEq_false_iff p c).mpr (hdup p hp)⟩

theorem c1_amended_witness :
    keepDecision nameContains nameEq ["wa".data] "Dwarf".data ["Axe".data]
      = true :=
  (c1_amended_name_keep_iff ["wa".data] "Dwarf".data ["Axe".data]
    (by decide)).mpr (by decide)

theorem generateKw_tries_le (contains : α → Txt → Bool) (eqI : α → α → Bool)
    (produce : Nat → α) (clock : Nat → Nat) (start maxTime : Nat)
    (keywords : List Txt) (count : Nat) :
    ∀ (fuel n : Nat) (items : List α),
      (generateKw contains eqI produce clock start maxTime keywords count
        fuel n items).2 ≤ n + fuel := by
  intro fuel
  induction fuel with
  | zero => intro n items; simp [generateKw]
  | succ fuel ih =>
    intro n items
    simp only [generateKw]
    by_cases hlt : items.length < count
    · simp only [hlt, if_true]
      by_cases ht : start + maxTime < clock n
      · simp only [ht, if_true]; omega
      · simp only [ht, if_false]
        have := ih (n + 1)
          (if keepDecision contains eqI keywords (produce n) items then
            items ++ [produce n] else items)
        omega
    · simp only [hlt, if_false]; omega

theorem generateKw_stabilizes (contains : α → Txt → Bool)
    (eqI : α → α → Bool) (produce : Nat → α) (clock : Nat → Nat)
    (start maxTime : Nat) (keywords : List Txt) (count N : Nat)
    (hmono : ∀ a b : Nat, a ≤ b → clock a ≤ clock b)
    (hN : start + maxTime < clock N) :
    ∀ (k n : Nat) (items : List α) (j : Nat), N ≤ n + k →
      generateKw contains eqI produce clock start maxTime keywords count
          (k + 1 + j) n items
        = generateKw contains eqI produce clock start maxTime keywords count
          (k + 1) n items := by
  intro k
  induction k with
  | zero =>
    intro n items j hn
    have hcn : start + maxTime < clock n :=
      lt_of_lt_of_le hN (hmono N n (by omega))
    have e1 : 0 + 1 + j = j + 1 := by omega
    rw [e1]
    simp only [generateKw]
    by_cases hlt : items.length < count
    · simp [hlt, hcn]
    · simp [hlt]
  | succ k ih =>
    intro n items j hn
    have e1 : k + 1 + 1 + j = (k + 1 + j) + 1 := by omega
    have e2 : k + 1 + 1 = (k + 1) + 1 := by omega
    rw [e1, e2]
    simp only [generateKw]
    by_cases hlt : items.length < count
    · simp only [hlt, if_true]
      by_cases ht : start + maxTime < clock n
      · simp [ht]
      · simp only [ht, if_false]
        exact ih (n + 1)
          (if keepDecision contains eqI keywords (produce n) items then
            items ++ [produce n] else items) j (by omega)
    · simp [hlt]

/-- C7: with keywords present the loop terminates for every `count` and
`maxTime`: once the (monotone) clock passes `start + maxTime` at attempt
`N`, the deadline poll — made once per production attempt — stops the loop
after at most the one in-flight attempt, so the outcome is the same for
every attempt bound of at least `N + 1`, at most `N + 1` attempts are
made, and whatever items were kept so far are returned (possibly fewer
than `count`). -/
theorem c7_keyword_loop_terminates (contains : α → Txt → Bool)
    (eqI : α → α → Bool) (produce : Nat → α) (clock : Nat → Nat)
    (start maxTime : Nat) (keywords : List Txt) (count N j : Nat)
    (items : List α)
    (hmono : ∀ a b : Nat, a ≤ b → clock a ≤ clock b)
    (hN : start + maxTime < clock N) :
    generateKw contains eqI produce clock start maxTime keywords count
        (N + 1 + j) 0 items
      = generateKw contains eqI produce clock start maxTime keywords count
        (N + 1) 0 items ∧
    (generateKw contains eqI produce clock start maxTime keywords count
        (N + 1) 0 items).2 ≤ N + 1 := by
  constructor
  · exact generateKw_stabilizes contains eqI produce clock start maxTime
      keywords count N hmono hN N 0 items j (by omega)
  · simpa using generateKw_tries_le contains eqI produce clock start maxTime
      keywords count (N + 1) 0 items

theorem c7_witness :
    generateKw (fun (_ : Txt) _ => true) (fun _ _ => false)
        (fun _ => "x".data) (fun n => n) 0 2 ["q".data] 5 6 0 []
      = generateKw (fun _ _ => true) (fun _ _ => false) (fun _ => "x".data)
        (fun n => n) 0 2 ["q".data] 5 4 0 [] ∧
    (generateKw (fun (_ : Txt) _ => true) (fun _ _ => false)
        (fun _ => "x".data) (fun n => n) 0 2 ["q".data] 5 4 0 []).2 ≤ 4 :=
  c7_keyword_loop_terminates (fun _ _ => true) (fun _ _ => false)
    (fun _ => "x".data) (fun n => n) 0 2 ["q".data] 5 3 2 []
    (fun _ _ h => h) (by decide)

/-! ## Cross-generator invocation (claim C8) -/

/-- C8: cross-generator invocation on a pair absent from the registry
fails with the `UnknownGenerator` error naming the pair, leaving the
registry exactly as it was; on a registered pair it builds a fresh
instance with `force_table_update = False`, runs the single-item
keyword-free production path, and returns that first item — again with
the registry unchanged. -/
theorem c8_cross_generator_invocation (library : GenLibrary α)
    (genType genName : Txt) :
    ((lookupA library genType).bind (fun m => lookupA m genName) = none →
      getOtherGeneratorOutput library genType genName
        = (Except.error ⟨genType, genName⟩, library)) ∧
    (∀ construct : Bool → Nat → α,
      (lookupA library genType).bind (fun m => lookupA m genName)
          = some construct →
      getOtherGeneratorOutput library genType genName
        = (Except.ok (construct false 0), library)) ∧
    (getOtherGeneratorOutput library genType genName).2 = library := by
  have hgen : ∀ construct : Bool → Nat → α,
      (generate (fun _ _ => true) (fun _ _ => true) (construct false)
        (fun _ => 1) 0 0 none 1 1 []).head? = some (construct false 0) :=
    fun _ => rfl
  refine ⟨?_, ?_, ?_⟩
  · intro h
    rcases hty : lookupA library genType with _ | byName
    · simp [getOtherGeneratorOutput, hty]
    · rw [hty, Option.some_bind] at h
      simp [getOtherGeneratorOutput, hty, h]
  · intro construct h
    rcases hty : lookupA library genType with _ | byName
    · rw [hty] at h; simp at h
    · rw [hty, Option.some_bind] at h
      simp [getOtherGeneratorOutput, hty, h, hgen construct]
  · rcases hty : lookupA library genType with _ | byName
    · simp [getOtherGeneratorOutput, hty]
    · rcases hnm : lookupA byName genName with _ | construct
      · simp [getOtherGeneratorOutput, hty, hnm]
      · simp [getOtherGeneratorOutput, hty, hnm, hgen construct]

theorem c8_witness :
    getOtherGeneratorOutput [("name".data, [("spells".data,
        fun (_ : Bool) (n : Nat) => n)])] "name".data "spells".data
      = (Except.ok 0,
         [("name".data, [("spells".data, fun (_ : Bool) (n : Nat) => n)])]) ∧
    getOtherGeneratorOutput [("name".data, [("spells".data,
        fun (_ : Bool) (n : Nat) => n)])] "npc".data "goblin".data
      = (Except.error ⟨"npc".data, "goblin".data⟩,
         [("name".data, [("spells".data, fun (_ : Bool) (n : Nat) => n)])]) :=
  ⟨(c8_cross_generator_invocation _ _ _).2.1 (fun _ n => n) rfl,
   (c8_cross_generator_invocation _ _ _).1 rfl⟩

/-! ## Table-loading lemmas (claim C9) -/

theorem lookupA_nil [BEq κ] (k : κ) :
    lookupA ([] : List (κ × β)) k = none := rfl

theorem lookupA_append [BEq κ] (l1 l2 : List (κ × β)) (k : κ) :
    lookupA (l1 ++ l2) k = (lookupA l1 k).or (lookupA l2 k) := by
  simp only [lookupA, List.find?_append]
  cases List.find? (fun p => p.1 == k) l1 with
  | none => simp
  | some p => simp

theorem lookupA_eq_none_iff [BEq κ] [LawfulBEq κ] (l : List (κ × β)) (k : κ) :
    lookupA l k = none ↔ k ∉ l.map Prod.fst := by
  simp only [lookupA, Option.map_eq_none', List.find?_eq_none, List.mem_map]
  constructor
  · rintro h ⟨p, hp, hk⟩
    exact h p hp (by simp [hk])
  · intro h p hp hbeq
    exact h ⟨p, hp, by simpa using hbeq⟩

theorem lookupA_of_mem_nodup [BEq κ] [LawfulBEq κ] (l : List (κ × β))
    (k : κ) (v : β) (hnd : (l.map Prod.fst).Nodup) (hm : (k, v) ∈ l) :
    lookupA l k = some v := by
  induction l with
  | nil => cases hm
  | cons p rest ih =>
    rcases List.mem_cons.mp hm with hp | hp
    · simp [lookupA, List.find?_cons, ← hp]
    · have hk : k ∈ rest.map Prod.fst :=
        List.mem_map.mpr ⟨(k, v), hp, rfl⟩
      have hne : ¬ (p.1 == k) = true := by
        intro hbeq
        have : p.1 ∈ rest.map Prod.fst := by
          rw [eq_of_beq hbeq]; exact hk
        exact (List.nodup_cons.mp (by simpa using hnd)).1 this
      simp only [lookupA, List.find?_cons, hne, Bool.false_eq_true, if_false]
      exact ih (List.nodup_cons.mp (by simpa using hnd)).2 hp

theorem setEntry_keys (acc : List (Option Txt × List Txt)) (k : Option Txt)
    (v : List Txt) :
    (setEntry acc k v).map Prod.fst = acc.map Prod.fst ++
      (if acc.any (fun p => p.1 == k) then [] else [k]) := by
  by_cases h : acc.any (fun p => p.1 == k) = true
  · simp only [setEntry, h, if_true, List.append_nil, List.map_map]
    apply List.map_congr_left
    intro p _
    by_cases hp : (p.1 == k) = true
    · simp [hp, eq_of_beq hp]
    · simp only [Function.comp_apply]
      rw [if_neg hp]
  · have h' : acc.any (fun p => p.1 == k) = false := by
      rwa [Bool.not_eq_true] at h
    simp [setEntry, h']

theorem setEntry_keys_nodup (acc : List (Option Txt × List Txt))
    (k : Option Txt) (v : List Txt)
    (hnd : (acc.map Prod.fst).Nodup) :
    ((setEntry acc k v).map Prod.fst).Nodup := by
  rw [setEntry_keys]
  by_cases h : acc.any (fun p => p.1 == k) = true
  · simpa [h] using hnd
  · have h' : acc.any (fun p => p.1 == k) = false := by
      rwa [Bool.not_eq_true] at h
    have hk : k ∉ acc.map Prod.fst := by
      intro hmem
      obtain ⟨p, hp, hpk⟩ := List.mem_map.mp hmem
      have := List.any_eq_false.mp h' p hp
      simp [hpk] at this
    simp only [h', Bool.false_eq_true, if_false]
    simp [List.nodup_append, hnd, hk]

theorem textFileToDict_keys_nodup (lines : List Txt) :
    ∀ (cur : Option Txt) (acc : List (Option Txt × List Txt)),
      (acc.map Prod.fst).Nodup →
      ((textFileToDict lines cur acc).map Prod.fst).Nodup := by
  induction lines with
  | nil => intro cur acc h; simpa [textFileToDict] using h
  | cons line rest ih =>
    intro cur acc h
    simp only [textFileToDict]
    rcases hl : strip line with _ | ⟨c, cs⟩
    · exact ih cur acc h
    · by_cases hc : (c == '#') = true
      · simp only [hc, if_true]
        exact ih (some (strip cs)) acc h
      · simp only [hc, Bool.false_eq_true, if_false]
        exact ih cur (setEntry acc cur ((splitDemar (c :: cs)).map strip))
          (setEntry_keys_nodup acc cur ((splitDemar (c :: cs)).map strip) h)

theorem addFileTables_ok_inv (source : Txt) :
    ∀ (d tables t : List (Option Txt × List Txt)),
      addFileTables source tables d = Except.ok t →
      t = tables ++ d ∧ ∀ kv ∈ d, lookupA tables kv.1 = none := by
  intro d
  induction d with
  | nil =>
    intro tables t h
    simp only [addFileTables, Except.ok.injEq] at h
    simp [← h]
  | cons kv rest ih =>
    intro tables t h
    rcases kv with ⟨k, v⟩
    rcases hl : lookupA tables k with _ | existing
    · simp only [addFileTables, hl] at h
      obtain ⟨ht, hrest⟩ := ih (tables ++ [(k, v)]) t h
      constructor
      · rw [ht]; simp
      · intro kv2 hkv2
        rcases List.mem_cons.mp hkv2 with hk1 | hk2
        · rw [hk1]; exact hl
        · have := hrest kv2 hk2
          rw [lookupA_append] at this
          cases hx : lookupA tables kv2.1 with
          | none => rfl
          | some w => rw [hx] at this; simp at this
    · simp [addFileTables, hl] at h

theorem addFileTables_ok_of (source : Txt) :
    ∀ (d tables : List (Option Txt × List Txt)),
      (d.map Prod.fst).Nodup →
      (∀ kv ∈ d, lookupA tables kv.1 = none) →
      addFileTables source tables d = Except.ok (tables ++ d) := by
  intro d
  induction d with
  | nil => intro tables _ _; simp [addFileTables]
  | cons kv rest ih =>
    intro tables hnd hdisj
    rcases kv with ⟨k, v⟩
    have hk : lookupA tables k = none := hdisj (k, v) (by simp)
    simp only [addFileTables, hk]
    have hrest : ∀ kv2 ∈ rest, lookupA (tables ++ [(k, v)]) kv2.1 = none := by
      intro kv2 hkv2
      rw [lookupA_append]
      rw [hdisj kv2 (List.mem_cons_of_mem _ hkv2)]
      have hne : kv2.1 ≠ k := by
        intro he
        have hmem : k ∈ rest.map Prod.fst :=
          List.mem_map.mpr ⟨kv2, hkv2, he⟩
        exact (List.nodup_cons.mp (by simpa using hnd)).1 hmem
      simp only [Option.none_or]
      rw [lookupA_eq_none_iff]
      simp [hne]
    have := ih (tables ++ [(k, v)])
      (List.nodup_cons.mp (by simpa using hnd)).2 hrest
    rw [this]
    simp

theorem addFileTables_error_of (source : Txt) :
    ∀ (d tables : List (Option Txt × List Txt)),
      (∃ kv ∈ d, lookupA tables kv.1 ≠ none) →
      ∃ e, addFileTables source tables d = Except.error e := by
  intro d
  induction d with
  | nil => rintro tables ⟨kv, hm, _⟩; cases hm
  | cons kv0 rest ih =>
    rintro tables ⟨kv, hm, hne⟩
    rcases kv0 with ⟨k, v⟩
    rcases hl : lookupA tables k with _ | existing
    · simp only [addFileTables, hl]
      apply ih (tables ++ [(k, v)])
      rcases List.mem_cons.mp hm with hk1 | hk2
      · exfalso; rw [hk1] at hne; exact hne hl
      · refine ⟨kv, hk2, ?_⟩
        rw [lookupA_append]
        cases hx : lookupA tables kv.1 with
        | none => exact absurd hx hne
        | some w => simp
    · exact ⟨⟨k, source, existing⟩, by simp [addFileTables, hl]⟩

theorem lookupA_singleton_some [BEq κ] [LawfulBEq κ] (k k2 : κ) (v w : β)
    (h : lookupA [(k, v)] k2 = some w) : k = k2 ∧ w = v := by
  by_cases hb : (k == k2) = true
  · simp only [lookupA, List.find?, hb, Option.map_some'] at h
    exact ⟨eq_of_beq hb, by simpa using h.symm⟩
  · simp only [lookupA, List.find?, hb] at h
    cases h

theorem addFileTables_error_inv (source : Txt) :
    ∀ (d tables : List (Option Txt × List Txt)) (e : DuplicateCategory),
      (d.map Prod.fst).Nodup →
      addFileTables source tables d = Except.error e →
      e.source = source ∧ e.category ∈ d.map Prod.fst ∧
        lookupA tables e.category = some e.existing := by
  intro d
  induction d with
  | nil => intro tables e _ h; simp [addFileTables] at h
  | cons kv rest ih =>
    intro tables e hnd h
    rcases kv with ⟨k, v⟩
    rcases hl : lookupA tables k with _ | existing
    · simp only [addFileTables, hl] at h
      obtain ⟨hs, hc, hex⟩ := ih (tables ++ [(k, v)]) e
        (List.nodup_cons.mp (by simpa using hnd)).2 h
      refine ⟨hs, by simp [hc], ?_⟩
      rw [lookupA_append] at hex
      cases hx : lookupA tables e.category with
      | none =>
        rw [hx, Option.none_or] at hex
        exfalso
        obtain ⟨hk, _⟩ := lookupA_singleton_some k e.category v e.existing hex
        have hkm : k ∈ rest.map Prod.fst := by rw [hk]; exact hc
        exact (List.nodup_cons.mp (by simpa using hnd)).1 hkm
      | some w =>
        rw [hx] at hex
        have hwe : w = e.existing := by
          have h2 : some w = some e.existing := hex
          exact (Option.some.injEq w e.existing).mp h2
        exact congrArg some hwe
    · simp only [addFileTables, hl, Except.error.injEq] at h
      rw [← h]
      exact ⟨rfl, by simp, by simpa using hl⟩

theorem getTablesAux_ok_of :
    ∀ (files : List (Txt × List Txt)) (t0 : List (Option Txt × List Txt)),
      List.Pairwise (fun f g =>
        ∀ k ∈ (textFileToDict f.2 none []).map Prod.fst,
          k ∉ (textFileToDict g.2 none []).map Prod.fst) files →
      (∀ f ∈ files, ∀ kv ∈ textFileToDict f.2 none [],
        lookupA t0 kv.1 = none) →
      ∃ t, getTablesAux t0 files = Except.ok t ∧
        (∀ (k : Option Txt) (v : List Txt),
          lookupA t0 k = some v → lookupA t k = some v) ∧
        (∀ f ∈ files, ∀ kv ∈ textFileToDict f.2 none [],
          lookupA t kv.1 = some kv.2) := by
  intro files
  induction files with
  | nil =>
    intro t0 _ _
    exact ⟨t0, rfl, fun k v h => h, by simp⟩
  | cons f rest ih =>
    intro t0 hpw hdisj
    have hnd := textFileToDict_keys_nodup f.2 none [] (by simp)
    have hadd := addFileTables_ok_of f.1 (textFileToDict f.2 none []) t0 hnd
      (fun kv hkv => hdisj f (by simp) kv hkv)
    obtain ⟨hpw1, hpw2⟩ := List.pairwise_cons.mp hpw
    have hdisj2 : ∀ g ∈ rest, ∀ kv ∈ textFileToDict g.2 none [],
        lookupA (t0 ++ textFileToDict f.2 none []) kv.1 = none := by
      intro g hg kv hkv
      rw [lookupA_append, hdisj g (List.mem_cons_of_mem f hg) kv hkv,
        Option.none_or, lookupA_eq_none_iff]
      intro hmem
      exact hpw1 g hg kv.1 hmem (List.mem_map.mpr ⟨kv, hkv, rfl⟩)
    obtain ⟨t, hok, hpres, hlook⟩ :=
      ih (t0 ++ textFileToDict f.2 none []) hpw2 hdisj2
    refine ⟨t, ?_, ?_, ?_⟩
    · simp only [getTablesAux, hadd]
      exact hok
    · intro k v h
      apply hpres
      rw [lookupA_append, h]
      rfl
    · intro g hg kv hkv
      rcases List.mem_cons.mp hg with hgf | hgr
      · subst hgf
        apply hpres
        rw [lookupA_append, hdisj g (by simp) kv hkv, Option.none_or]
        rcases kv with ⟨k1, v1⟩
        exact lookupA_of_mem_nodup _ k1 v1 hnd hkv
      · exact hlook g hgr kv hkv

theorem getTablesAux_ok_disjoint :
    ∀ (files : List (Txt × List Txt)) (t0 t : List (Option Txt × List Txt)),
      getTablesAux t0 files = Except.ok t →
      ∀ f ∈ files, ∀ kv ∈ textFileToDict f.2 none [],
        lookupA t0 kv.1 = none := by
  intro files
  induction files with
  | nil => intro t0 t _ f hf; cases hf
  | cons f0 rest ih =>
    intro t0 t h f hf
    rcases ha : addFileTables f0.1 t0 (textFileToDict f0.2 none [])
      with e | t1
    · simp [getTablesAux, ha] at h
    · simp only [getTablesAux, ha] at h
      obtain ⟨ht1, hdisj0⟩ := addFileTables_ok_inv f0.1 _ t0 t1 ha
      rcases List.mem_cons.mp hf with hff | hfr
      · intro kv hkv; subst hff; exact hdisj0 kv hkv
      · intro kv hkv
        have h2 := ih t1 t h f hfr kv hkv
        rw [ht1, lookupA_append] at h2
        cases hx : lookupA t0 kv.1 with
        | none => rfl
        | some w => rw [hx] at h2; cases h2

theorem getTablesAux_ok_pairwise :
    ∀ (files : List (Txt × List Txt)) (t0 t : List (Option Txt × List Txt)),
      getTablesAux t0 files = Except.ok t →
      List.Pairwise (fun f g =>
        ∀ k ∈ (textFileToDict f.2 none []).map Prod.fst,
          k ∉ (textFileToDict g.2 none []).map Prod.fst) files := by
  intro files
  induction files with
  | nil => intro t0 t _; exact List.Pairwise.nil
  | cons f0 rest ih =>
    intro t0 t h
    rcases ha : addFileTables f0.1 t0 (textFileToDict f0.2 none [])
      with e | t1
    · simp [getTablesAux, ha] at h
    · simp only [getTablesAux, ha] at h
      obtain ⟨ht1, _⟩ := addFileTables_ok_inv f0.1 _ t0 t1 ha
      refine List.pairwise_cons.mpr ⟨?_, ih t1 t h⟩
      intro g hg k hkf hkg
      obtain ⟨kvg, hkvg, hkvg1⟩ := List.mem_map.mp hkg
      have h2 := getTablesAux_ok_disjoint rest t1 t h g hg kvg hkvg
      rw [ht1, lookupA_append] at h2
      cases hx : lookupA t0 kvg.1 with
      | some w => rw [hx] at h2; cases h2
      | none =>
        rw [hx, Option.none_or, lookupA_eq_none_iff] at h2
        rw [hkvg1] at h2
        exact h2 hkf

theorem getTablesAux_error_inv :
    ∀ (files : List (Txt × List Txt)) (t0 : List (Option Txt × List Txt))
      (e : DuplicateCategory),
      getTablesAux t0 files = Except.error e →
      ∃ pre f post t, files = pre ++ f :: post ∧
        getTablesAux t0 pre = Except.ok t ∧ e.source = f.1 ∧
        lookupA t e.category = some e.existing ∧
        e.category ∈ (textFileToDict f.2 none []).map Prod.fst := by
  intro files
  induction files with
  | nil => intro t0 e h; simp [getTablesAux] at h
  | cons f0 rest ih =>
    intro t0 e h
    rcases ha : addFileTables f0.1 t0 (textFileToDict f0.2 none [])
      with e0 | t1
    · simp only [getTablesAux, ha, Except.error.injEq] at h
      subst h
      have hnd := textFileToDict_keys_nodup f0.2 none [] (by simp)
      obtain ⟨hs, hc, hex⟩ :=
        addFileTables_error_inv f0.1 (textFileToDict f0.2 none []) t0 e0
          hnd ha
      exact ⟨[], f0, rest, t0, rfl, rfl, hs, hex, hc⟩
    · simp only [getTablesAux, ha] at h
      obtain ⟨pre, f, post, t, hfiles, hpre, hs, hex, hc⟩ := ih t1 e h
      refine ⟨f0 :: pre, f, post, t, by rw [hfiles]; rfl, ?_, hs, hex, hc⟩
      simp only [getTablesAux, ha]
      exact hpre

/-- C9: loading table sources with pairwise-distinct category names
succeeds and maps every category of every source to its entries; if some
category name recurs across the sources, loading fails, and the raised
`DuplicateCategory` error names the offending category, the source it came
from, and the contents already loaded for it from an earlier source. -/
theorem c9_duplicate_category_detection (files : List (Txt × List Txt)) :
    (List.Pairwise (fun f g =>
        ∀ k ∈ (textFileToDict f.2 none []).map Prod.fst,
          k ∉ (textFileToDict g.2 none []).map Prod.fst) files →
      ∃ t, getTables files = Except.ok t ∧
        ∀ f ∈ files, ∀ kv ∈ textFileToDict f.2 none [],
          lookupA t kv.1 = some kv.2) ∧
    (¬ List.Pairwise (fun f g =>
        ∀ k ∈ (textFileToDict f.2 none []).map Prod.fst,
          k ∉ (textFileToDict g.2 none []).map Prod.fst) files →
      ∃ e, getTables files = Except.error e) ∧
    (∀ e, getTables files = Except.error e →
      ∃ pre f post t, files = pre ++ f :: post ∧
        getTables pre = Except.ok t ∧ e.source = f.1 ∧
        lookupA t e.category = some e.existing ∧
        e.category ∈ (textFileToDict f.2 none []).map Prod.fst) := by
  refine ⟨?_, ?_, ?_⟩
  · intro hpw
    obtain ⟨t, hok, _, hlook⟩ :=
      getTablesAux_ok_of files [] hpw (by intro f _ kv _; rfl)
    exact ⟨t, hok, hlook⟩
  · intro hnpw
    rcases hx : getTables files with e | t
    · exact ⟨e, rfl⟩
    · exact absurd (getTablesAux_ok_pairwise files [] t hx) hnpw
  · intro e he
    exact getTablesAux_error_inv files [] e he

theorem c9_witness :
    (∃ t, getTables [("f1".data, ["# a".data, "x".data]),
          ("f2".data, ["# b".data, "y".data])] = Except.ok t ∧
        ∀ f ∈ [("f1".data, ["# a".data, "x".data]),
          ("f2".data, ["# b".data, "y".data])],
          ∀ kv ∈ textFileToDict f.2 none [],
            lookupA t kv.1 = some kv.2) ∧
    (∃ e, getTables [("f1".data, ["# a".data, "x".data]),
          ("f2".data, ["# a".data, "y".data])] = Except.error e) :=
  ⟨(c9_duplicate_category_detection [("f1".data, ["# a".data, "x".data]),
      ("f2".data, ["# b".data, "y".data])]).1 (by decide),
   (c9_duplicate_category_detection [("f1".data, ["# a".data, "x".data]),
      ("f2".data, ["# a".data, "y".data])]).2.1 (by decide)⟩

/-! ## Canonicalization lemmas (claims about `Generator._update`, C5) -/

theorem toNat_ofNat_lt (n : Nat) (h : n < 55296) :
    (Char.ofNat n).toNat = n := by
  have hv : n.isValidChar := Or.inl h
  simp [Char.ofNat, hv, Char.ofNatAux, Char.toNat, UInt32.toNat,
    BitVec.toNat_ofNatLt]

theorem charToNat_inj (a b : Char) (h : a.toNat = b.toNat) : a = b :=
  Char.ext (UInt32.ext_iff.mpr h)

theorem lowChar_idem (c : Char) : lowChar (lowChar c) = lowChar c := by
  by_cases h : 65 ≤ c.toNat ∧ c.toNat ≤ 90
  · have ht : (Char.ofNat (c.toNat + 32)).toNat = c.toNat + 32 :=
      toNat_ofNat_lt _ (by omega)
    have h1 : lowChar c = Char.ofNat (c.toNat + 32) := by simp [lowChar, h]
    rw [h1]
    have h2 : ¬ (65 ≤ (Char.ofNat (c.toNat + 32)).toNat ∧
        (Char.ofNat (c.toNat + 32)).toNat ≤ 90) := by
      rw [ht]; omega
    simp [lowChar, h2]
  · have h1 : lowChar c = c := by simp [lowChar, h]
    rw [h1, h1]

theorem lowTxt_idem (s : Txt) : lowTxt (lowTxt s) = lowTxt s := by
  simp only [lowTxt, List.map_map]
  apply List.map_congr_left
  intro a _
  exact lowChar_idem a

theorem lexLt_total (x : Txt) :
    ∀ y, lexLt x y = false → x ≠ y → lexLt y x = true := by
  induction x with
  | nil =>
    intro y hxy hne
    cases y with
    | nil => exact absurd rfl hne
    | cons b bs => simp [lexLt] at hxy
  | cons a as ih =>
    intro y hxy hne
    cases y with
    | nil => simp [lexLt]
    | cons b bs =>
      simp only [lexLt] at hxy ⊢
      by_cases h1 : a.toNat < b.toNat
      · rw [if_pos h1] at hxy; cases hxy
      · by_cases h2 : b.toNat < a.toNat
        · rw [if_pos h2]
        · rw [if_neg h2, if_neg h1]
          rw [if_neg h1, if_neg h2] at hxy
          have hab : a = b := charToNat_inj a b (by omega)
          subst hab
          exact ih bs hxy (fun he => hne (by rw [he]))

theorem sortedInsert_head? (x : Txt) :
    ∀ l, (sortedInsert x l).head? = some x ∨
      (sortedInsert x l).head? = l.head? := by
  intro l
  cases l with
  | nil => left; rfl
  | cons y ys =>
    by_cases h1 : lexLt x y = true
    · left; simp [sortedInsert, h1]
    · by_cases h2 : (x == y) = true
      · right; simp [sortedInsert, h1, h2]
      · right; simp [sortedInsert, h1, h2]

theorem chain'_sortedInsert (x : Txt) :
    ∀ l, List.Chain' (fun a b => lexLt a b = true) l →
      List.Chain' (fun a b => lexLt a b = true) (sortedInsert x l) := by
  intro l
  induction l with
  | nil => intro _; simp [sortedInsert]
  | cons y ys ih =>
    intro hc
    have hys : List.Chain' (fun a b => lexLt a b = true) ys := hc.tail
    by_cases h1 : lexLt x y = true
    · simp only [sortedInsert, h1, if_true]
      exact List.chain'_cons.mpr ⟨h1, hc⟩
    · by_cases h2 : (x == y) = true
      · simp only [sortedInsert, h1, h2]
        simp only [Bool.false_eq_true, if_false, if_true]
        exact hc
      · simp only [sortedInsert, h1, h2]
        simp only [Bool.false_eq_true, if_false]
        apply List.chain'_cons'.mpr
        constructor
        · intro z hz
          rcases sortedInsert_head? x ys with hh | hh
          · rw [hh] at hz
            have hzx : x = z := by simpa using hz
            subst hzx
            apply lexLt_total x y
            · simpa using h1
            · intro he
              rw [he] at h2
              simp at h2
          · rw [hh] at hz
            exact (List.chain'_cons'.mp hc).1 z hz
        · exact ih hys

theorem sortDedup_chain' (l : List Txt) :
    List.Chain' (fun a b => lexLt a b = true) (sortDedup l) := by
  induction l with
  | nil => simp [sortDedup]
  | cons x xs ih => exact chain'_sortedInsert x (sortDedup xs) ih

theorem sortedInsert_of_chain' (x : Txt) (l : List Txt)
    (hc : List.Chain' (fun a b => lexLt a b = true) (x :: l)) :
    sortedInsert x l = x :: l := by
  cases l with
  | nil => rfl
  | cons y ys =>
    have hxy : lexLt x y = true := (List.chain'_cons.mp hc).1
    simp [sortedInsert, hxy]

theorem sortDedup_of_chain' (l : List Txt)
    (hc : List.Chain' (fun a b => lexLt a b = true) l) :
    sortDedup l = l := by
  induction l with
  | nil => rfl
  | cons x xs ih =>
    have h1 : sortDedup (x :: xs) = sortedInsert x (sortDedup xs) := rfl
    rw [h1, ih hc.tail]
    exact sortedInsert_of_chain' x xs hc

theorem mem_sortedInsert (x z : Txt) :
    ∀ l, z ∈ sortedInsert x l → z = x ∨ z ∈ l := by
  intro l
  induction l with
  | nil => intro h; left; simpa [sortedInsert] using h
  | cons y ys ih =>
    intro h
    by_cases h1 : lexLt x y = true
    · simp only [sortedInsert, h1, if_true] at h
      rcases List.mem_cons.mp h with h2 | h2
      · left; exact h2
      · right; exact h2
    · by_cases h2 : (x == y) = true
      · simp only [sortedInsert, h1, h2, Bool.false_eq_true, if_false,
          if_true] at h
        right; exact h
      · simp only [sortedInsert, h1, h2, Bool.false_eq_true, if_false] at h
        rcases List.mem_cons.mp h with h3 | h3
        · right; rw [h3]; simp
        · rcases ih h3 with h4 | h4
          · left; exact h4
          · right; exact List.mem_cons_of_mem y h4

theorem mem_sortDedup (z : Txt) :
    ∀ l, z ∈ sortDedup l → z ∈ l := by
  intro l
  induction l with
  | nil => intro h; simp [sortDedup] at h
  | cons x xs ih =>
    intro h
    rcases mem_sortedInsert x z (sortDedup xs) h with h1 | h1
    · rw [h1]; simp
    · exact List.mem_cons_of_mem x (ih h1)

theorem canonEntries_idem (vs : List Txt) :
    canonEntries (canonEntries vs) = canonEntries vs := by
  unfold canonEntries
  have hmap : (sortDedup (vs.map lowTxt)).map lowTxt
      = sortDedup (vs.map lowTxt) := by
    conv_rhs => rw [← List.map_id (sortDedup (vs.map lowTxt))]
    apply List.map_congr_left
    intro a ha
    obtain ⟨b, _, hba⟩ := List.mem_map.mp (mem_sortDedup a _ ha)
    rw [← hba, lowTxt_idem]
    rfl
  rw [hmap]
  exact sortDedup_of_chain' _ (sortDedup_chain' _)

theorem strip_parts (k : Txt) (h : strip k = k) :
    k.dropWhile isWs = k ∧ k.reverse.dropWhile isWs = k.reverse := by
  have hsub1 : (k.dropWhile isWs).Sublist k := List.dropWhile_sublist isWs
  have hsub2 : ((k.dropWhile isWs).reverse.dropWhile isWs).Sublist
      (k.dropWhile isWs).reverse := List.dropWhile_sublist isWs
  have hlen : (strip k).length = k.length := by rw [h]
  have hlen2 : (strip k).length
      = ((k.dropWhile isWs).reverse.dropWhile isWs).length := by
    simp [strip]
  have hle1 : (k.dropWhile isWs).length ≤ k.length := hsub1.length_le
  have hle2 : ((k.dropWhile isWs).reverse.dropWhile isWs).length
      ≤ (k.dropWhile isWs).length := by
    simpa using hsub2.length_le
  have heq1 : (k.dropWhile isWs).length = k.length := by omega
  have ha : k.dropWhile isWs = k := hsub1.eq_of_length heq1
  refine ⟨ha, ?_⟩
  have heq2 : (k.reverse.dropWhile isWs).length = k.reverse.length := by
    rw [ha] at hlen2
    simp only [List.length_reverse]
    omega
  exact (List.dropWhile_sublist isWs).eq_of_length heq2

theorem strip_cons_nonws (c : Char) (k : Txt) (hc : isWs c = false)
    (hk : k.reverse.dropWhile isWs = k.reverse) (hne : k ≠ []) :
    strip (c :: k) = c :: k := by
  unfold strip
  rw [List.dropWhile_cons, hc]
  simp only [Bool.false_eq_true, if_false]
  rw [List.reverse_cons, List.dropWhile_append, hk]
  have hre : k.reverse.isEmpty = false := by
    simp [List.isEmpty_iff, hne]
  rw [hre]
  simp

theorem strip_space_cons (k : Txt) (h1 : k.dropWhile isWs = k)
    (h2 : k.reverse.dropWhile isWs = k.reverse) : strip (' ' :: k) = k := by
  unfold strip
  rw [List.dropWhile_cons]
  have hsp : isWs ' ' = true := rfl
  rw [hsp]
  simp only [if_true]
  rw [h1, h2]
  simp

theorem strip_header_line (k : Txt) (h : strip k = k) :
    ∃ cs, strip ('#' :: ' ' :: k) = '#' :: cs ∧ strip cs = k := by
  cases k with
  | nil => exact ⟨[], by decide, rfl⟩
  | cons c0 k0 =>
    obtain ⟨h1, h2⟩ := strip_parts (c0 :: k0) h
    refine ⟨' ' :: c0 :: k0, ?_, strip_space_cons (c0 :: k0) h1 h2⟩
    apply strip_cons_nonws '#' (' ' :: c0 :: k0) (by decide) ?_ (by simp)
    rw [List.reverse_cons, List.dropWhile_append, h2]
    have hre : ((c0 :: k0).reverse).isEmpty = false := by
      simp [List.isEmpty_iff]
    rw [hre]
    simp

theorem setEntry_append_of_not_mem (acc : List (Option Txt × List Txt))
    (k : Option Txt) (v : List Txt) (h : k ∉ acc.map Prod.fst) :
    setEntry acc k v = acc ++ [(k, v)] := by
  have hany : acc.any (fun p => p.1 == k) = false := by
    apply List.any_eq_false.mpr
    intro p hp
    intro hbeq
    exact h (List.mem_map.mpr ⟨p, hp, eq_of_beq hbeq⟩)
  simp [setEntry, hany]

theorem textFileToDict_renderDict (d : List (Option Txt × List Txt)) :
    ∀ (out : List Txt) (acc : List (Option Txt × List Txt))
      (cur : Option Txt),
      renderDict d = some out →
      (∀ p ∈ d, (∀ k2, p.1 = some k2 → strip k2 = k2) ∧
        joinDemar p.2 ≠ [] ∧ strip (joinDemar p.2) = joinDemar p.2 ∧
        (joinDemar p.2).head? ≠ some '#' ∧
        (splitDemar (joinDemar p.2)).map strip = p.2) →
      (∀ k2 ∈ d.map Prod.fst, k2 ∉ acc.map Prod.fst) →
      (d.map Prod.fst).Nodup →
      textFileToDict out cur acc = acc ++ d := by
  induction d with
  | nil =>
    intro out acc cur hr _ _ _
    have hout : out = [] := by
      simp only [renderDict, Option.some.injEq] at hr
      exact hr.symm
    subst hout
    simp [textFileToDict]
  | cons p rest ih =>
    intro out acc cur hr hgood hdisj hnd
    rcases p with ⟨kopt, vs⟩
    cases kopt with
    | none => simp [renderDict] at hr
    | some k =>
      rcases hr2 : renderDict rest with _ | out2
      · rw [renderDict, hr2] at hr
        simp at hr
      · rw [renderDict, hr2] at hr
        simp only [Option.map_some', Option.some.injEq] at hr
        subst hr
        obtain ⟨hgk, hne, hstr, hhead, hsplit⟩ :=
          hgood (some k, vs) (List.mem_cons_self _ _)
        simp only at hgk hne hstr hhead hsplit
        have hks : strip k = k := hgk k rfl
        obtain ⟨cs, hhdr, hcs⟩ := strip_header_line k hks
        simp only [textFileToDict]
        rw [hhdr]
        simp only [List.cons.injEq]
        have hsharp : ('#' == '#') = true := rfl
        simp only [hsharp, if_true]
        rw [hcs]
        rcases hl : joinDemar vs with _ | ⟨c2, cs2⟩
        · exact absurd hl hne
        · rw [hl] at hstr hsplit
          rw [hstr]
          have hc2 : (c2 == '#') = false := by
            apply beq_eq_false_iff_ne.mpr
            intro he
            rw [hl] at hhead
            exact hhead (by simp [he])
          have hstripnil : strip ([] : Txt) = ([] : Txt) := rfl
          rw [hstripnil]
          simp only [hc2, Bool.false_eq_true, if_false]
          rw [hsplit]
          rw [setEntry_append_of_not_mem acc (some k) vs
            (hdisj (some k) (by simp))]
          rw [List.map_cons] at hnd
          have hnd2 := List.nodup_cons.mp hnd
          rw [ih out2 (acc ++ [(some k, vs)]) (some k) hr2
            (fun q hq => hgood q (List.mem_cons_of_mem _ hq)) ?_ hnd2.2]
          · simp
          · intro k2 hk2
            simp only [List.map_append, List.mem_append]
            rintro (hka | hkk)
            · exact hdisj k2 (by simp [hk2]) hka
            · have hk2k : k2 = some k := by simpa using hkk
              rw [hk2k] at hk2
              exact hnd2.1 hk2

/-- C5 (counterexample): canonicalization is not idempotent on every
source: an entry starting with `#` sorts to the front, so the rewritten
content line `"#x | b"` starts with the header marker and the second pass
reparses it as a category header, producing an empty file. -/
theorem c5_counterexample_hash_entry :
    updateFile ["# a".data, "b | #x".data]
      = some ["# a".data, "#x | b".data, "".data] ∧
    updateFile ["# a".data, "#x | b".data, "".data]
      ≠ some ["# a".data, "#x | b".data, "".data] :=
  ⟨by decide, by decide⟩

/-- C5 (amended): the canonicalization pass is idempotent on every source
whose first-pass canonical categories are hygienic: each category key is
whitespace-trimmed, its rewritten entry line is non-empty, trimmed, does
not start with the `#` header marker, and splits back (after trimming) to
exactly its entries.  For such sources a second `_update` pass rewrites
the file with identical contents. -/
theorem c5_amended_idempotent (lines out : List Txt)
    (h1 : updateFile lines = some out)
    (hgood : ∀ p ∈ (textFileToDict lines none []).map
        (fun q => (q.1, canonEntries q.2)),
      strip (p.1.getD []) = p.1.getD [] ∧
        joinDemar p.2 ≠ [] ∧ strip (joinDemar p.2) = joinDemar p.2 ∧
        (joinDemar p.2).head? ≠ some '#' ∧
        (splitDemar (joinDemar p.2)).map strip = p.2) :
    updateFile out = some out := by
  unfold updateFile at h1 ⊢
  have hnd0 : ((textFileToDict lines none []).map Prod.fst).Nodup :=
    textFileToDict_keys_nodup lines none [] (by simp)
  have hkeys : (((textFileToDict lines none []).map
      (fun q => (q.1, canonEntries q.2))).map Prod.fst)
      = (textFileToDict lines none []).map Prod.fst := by
    simp [List.map_map]
  have hnd : (((textFileToDict lines none []).map
      (fun q => (q.1, canonEntries q.2))).map Prod.fst).Nodup := by
    rw [hkeys]; exact hnd0
  have hgood2 : ∀ p ∈ (textFileToDict lines none []).map
      (fun q => (q.1, canonEntries q.2)),
      (∀ k2, p.1 = some k2 → strip k2 = k2) ∧
        joinDemar p.2 ≠ [] ∧ strip (joinDemar p.2) = joinDemar p.2 ∧
        (joinDemar p.2).head? ≠ some '#' ∧
        (splitDemar (joinDemar p.2)).map strip = p.2 := by
    intro p hp
    refine ⟨?_, (hgood p hp).2⟩
    intro k2 he
    have hg := (hgood p hp).1
    rw [he] at hg
    simpa using hg
  have hparse : textFileToDict out none []
      = (textFileToDict lines none []).map
        (fun q => (q.1, canonEntries q.2)) := by
    simpa using textFileToDict_renderDict
      ((textFileToDict lines none []).map (fun q => (q.1, canonEntries q.2)))
      out [] none h1 hgood2 (by simp) hnd
  rw [hparse]
  have hmapcanon : ((textFileToDict lines none []).map
        (fun q => (q.1, canonEntries q.2))).map
        (fun q => (q.1, canonEntries q.2))
      = (textFileToDict lines none []).map
        (fun q => (q.1, canonEntries q.2)) := by
    simp only [List.map_map]
    apply List.map_congr_left
    intro q _
    simp [Function.comp_apply, canonEntries_idem]
  rw [hmapcanon]
  exact h1

theorem c5_amended_witness :
    updateFile ["# a".data, "b | c".data]
      = some ["# a".data, "b | c".data, "".data] ∧
    updateFile ["# a".data, "b | c".data, "".data]
      = some ["# a".data, "b | c".data, "".data] :=
  ⟨by decide,
   c5_amended_idempotent ["# a".data, "b | c".data]
     ["# a".data, "b | c".data, "".data] (by decide) (by decide)⟩
